import Mathlib

/-!
Verification of the `distro-rs` os-release parser (`src/os_release.rs`).

The parser works line by line.  Each line is first tested, in the fixed
order of the `parse_os_release_line!` macro invocation, against eleven
anchored regexes of the shape `^KEY="?([^"]+)"?$`; the first match assigns
capture group 1 to the corresponding field and skips the rest of the loop
body (`continue`).  Otherwise the line is searched (unanchored) with the
generic pattern `(\w+)="?([^"]+)"?` and, on a match, `(cap[1], cap[2])` is
inserted into the `extra` BTreeMap.

We embed the two regex shapes with a small backtracking matcher over a
token language that covers exactly the constructs they use: literal
characters, a greedy optional character (`"?`), a greedy captured
one-or-more character class (`([^"]+)`, `(\w+)`), and the end anchor `$`.
The matcher implements leftmost-first search with greedy, backtracking
quantifiers — the match semantics of the `regex` crate for these patterns.
`\w` is modelled by its ASCII part (letters, digits, underscore).
The BTreeMap is modelled as a sorted association list.
-/

namespace DistroRs

/-- Tokens of the regex subset used by `os_release.rs`:
a literal character, a greedy optional character (`"?`), a greedy
captured one-or-more run of characters satisfying a predicate
(`([^"]+)`, `(\w+)`), and the end-of-string anchor (`$`). -/
inductive Tok where
  | lit : Char → Tok
  | optChar : Char → Tok
  | plusGroup : Nat → (Char → Bool) → Tok
  | eos : Tok

/-- Result of a match attempt: the unconsumed remainder of the input and
the accumulated capture groups (group number, captured characters). -/
abbrev MatchRes := List Char × List (Nat × List Char)

/-- Backtracking loop for a greedy `+` group: try capture lengths from `k`
down to 1, handing the remainder to the continuation `f`; the first
success wins (greedy preference). -/
def tryFrom (f : List Char → List (Nat × List Char) → Option MatchRes)
    (n : Nat) (s : List Char) (caps : List (Nat × List Char)) :
    Nat → Option MatchRes
  | 0 => none
  | k + 1 =>
    match f (s.drop (k + 1)) ((n, s.take (k + 1)) :: caps) with
    | some r => some r
    | none => tryFrom f n s caps k

/-- Match a token sequence at the start of `s`, threading captures.
Greedy quantifiers try the longest alternative first and backtrack. -/
def matchToks : List Tok → List Char → List (Nat × List Char) → Option MatchRes
  | [], s, caps => some (s, caps)
  | Tok.lit c :: ts, s, caps =>
    match s with
    | [] => none
    | c' :: s' => if c' = c then matchToks ts s' caps else none
  | Tok.optChar c :: ts, s, caps =>
    match s with
    | [] => matchToks ts [] caps
    | c' :: s' =>
      if c' = c then
        match matchToks ts s' caps with
        | some r => some r
        | none => matchToks ts s caps
      else matchToks ts s caps
  | Tok.eos :: ts, s, caps =>
    match s with
    | [] => matchToks ts [] caps
    | _ :: _ => none
  | Tok.plusGroup n p :: ts, s, caps =>
    tryFrom (matchToks ts) n s caps (s.takeWhile p).length

/-- Unanchored leftmost-first search: try to match at every position from
the left, returning the captures of the first position that matches. -/
def searchFrom (toks : List Tok) : List Char → Option (List (Nat × List Char))
  | [] => (matchToks toks [] []).map Prod.snd
  | c :: s' =>
    match matchToks toks (c :: s') [] with
    | some r => some r.2
    | none => searchFrom toks s'

/-- The character class `\w` of the `regex` crate, restricted to ASCII:
letters, digits and underscore. -/
def isWordChar (c : Char) : Bool := c.isAlphanum || c = '_'

/-- The character class `[^"]`: any character other than a double quote. -/
def valueChar (c : Char) : Bool := c != '"'

/-- Token form of the anchored recognized-key regex `^KEY="?([^"]+)"?$`
(the leading `^` is implicit: the sequence is matched at position 0). -/
def anchoredToks (key : List Char) : List Tok :=
  key.map Tok.lit ++
    [Tok.lit '=', Tok.optChar '"', Tok.plusGroup 1 valueChar, Tok.optChar '"', Tok.eos]

/-- Token form of the generic pattern `(\w+)="?([^"]+)"?` (unanchored). -/
def genericToks : List Tok :=
  [Tok.plusGroup 1 isWordChar, Tok.lit '=', Tok.optChar '"',
   Tok.plusGroup 2 valueChar, Tok.optChar '"']

/-- `Regex::captures` for the anchored regex of a recognized key:
`none` when the line does not match, otherwise the capture list. -/
def anchoredCaps (key : String) (line : String) : Option (List (Nat × List Char)) :=
  (matchToks (anchoredToks key.data) line.data []).map Prod.snd

/-- `Regex::captures` for the generic pattern: unanchored search. -/
def genericCaps (line : String) : Option (List (Nat × List Char)) :=
  searchFrom genericToks line.data

/-- `caps.get(n).unwrap().as_str().to_string()`; the default for an absent
group models the panic, proved unreachable (`capture_groups_present`). -/
def capStr (n : Nat) (caps : List (Nat × List Char)) : String :=
  ⟨(caps.lookup n).getD []⟩

/-- Insertion into a `BTreeMap<String, String>` modelled as a sorted
association list: replace the value if the key is present, otherwise
insert at the sorted position. -/
def insertSorted : List (String × String) → String → String → List (String × String)
  | [], k, v => [(k, v)]
  | (k', v') :: t, k, v =>
    if k < k' then (k, v) :: (k', v') :: t
    else if k = k' then (k, v) :: t
    else (k', v') :: insertSorted t k v

/-- Contents of an `/etc/os-release` file, mirroring `struct OsRelease`;
`extra` models the `BTreeMap` as a sorted association list. -/
structure OsRelease where
  bug_report_url : String := ""
  home_url : String := ""
  id_like : String := ""
  id : String := ""
  name : String := ""
  pretty_name : String := ""
  privacy_policy_url : String := ""
  support_url : String := ""
  version_codename : String := ""
  version_id : String := ""
  version : String := ""
  extra : List (String × String) := []
deriving Repr, DecidableEq

/-- `OsRelease::default()`. -/
def default : OsRelease := {}

/-- The eleven recognized keys. -/
inductive Key where
  | name | version | id | id_like | pretty_name | version_id
  | home_url | support_url | bug_report_url | privacy_policy_url | version_codename
deriving Repr, DecidableEq

/-- The key name appearing in the regex of each recognized key. -/
def keyString : Key → String
  | .name => "NAME"
  | .version => "VERSION"
  | .id => "ID"
  | .id_like => "ID_LIKE"
  | .pretty_name => "PRETTY_NAME"
  | .version_id => "VERSION_ID"
  | .home_url => "HOME_URL"
  | .support_url => "SUPPORT_URL"
  | .bug_report_url => "BUG_REPORT_URL"
  | .privacy_policy_url => "PRIVACY_POLICY_URL"
  | .version_codename => "VERSION_CODENAME"

/-- The capture (group 1) of the anchored regex of recognized key `k` on a
line: `some v` exactly when the line matches `^KEY="?([^"]+)"?$`. -/
def recognizedCapture (k : Key) (line : String) : Option (List Char) :=
  (anchoredCaps (keyString k) line).bind fun caps => caps.lookup 1

/-- Read the field of a recognized key. -/
def getField (os : OsRelease) : Key → String
  | .name => os.name
  | .version => os.version
  | .id => os.id
  | .id_like => os.id_like
  | .pretty_name => os.pretty_name
  | .version_id => os.version_id
  | .home_url => os.home_url
  | .support_url => os.support_url
  | .bug_report_url => os.bug_report_url
  | .privacy_policy_url => os.privacy_policy_url
  | .version_codename => os.version_codename

/-- Assign the field of a recognized key (`os_release.field = value;`). -/
def setField (os : OsRelease) (k : Key) (v : String) : OsRelease :=
  match k with
  | .name => { os with name := v }
  | .version => { os with version := v }
  | .id => { os with id := v }
  | .id_like => { os with id_like := v }
  | .pretty_name => { os with pretty_name := v }
  | .version_id => { os with version_id := v }
  | .home_url => { os with home_url := v }
  | .support_url => { os with support_url := v }
  | .bug_report_url => { os with bug_report_url := v }
  | .privacy_policy_url => { os with privacy_policy_url := v }
  | .version_codename => { os with version_codename := v }

/-- The order in which `parse_os_release_line!` tries the eleven regexes. -/
def keysInOrder : List Key :=
  [.name, .version, .id, .id_like, .pretty_name, .version_id,
   .home_url, .support_url, .bug_report_url, .privacy_policy_url, .version_codename]

/-- The loop body of `from_iter` for one line, parameterized by the list of
recognized keys still to try: the first anchored match assigns its capture
to the field and stops (the macro's `continue`); if none matches, a generic
match inserts `(cap[1], cap[2])` into `extra`. -/
def stepRec (os : OsRelease) (line : String) : List Key → OsRelease
  | [] =>
    match genericCaps line with
    | some caps => { os with extra := insertSorted os.extra (capStr 1 caps) (capStr 2 caps) }
    | none => os
  | k :: ks =>
    match anchoredCaps (keyString k) line with
    | some caps => setField os k (capStr 1 caps)
    | none => stepRec os line ks

/-- Processing of a single line by the `for` loop of `from_iter`. -/
def step (os : OsRelease) (line : String) : OsRelease :=
  stepRec os line keysInOrder

/-- `OsRelease::from_iter`: fold the line processor over the input lines,
starting from `Self::default()`. -/
def from_iter (lines : List String) : OsRelease :=
  lines.foldl step default

/-- I/O errors, abstractly. -/
abbrev IOError := String

/-- `OsRelease::from_file`, with the file system made explicit: the
argument is the outcome of `File::open` — an error, or the lines of the
file where each line read may itself have failed.  `?` propagates the open
error; `lines().flat_map(|line| line)` keeps only the `Ok` lines. -/
def from_file (opened : Except IOError (List (Except IOError String))) :
    Except IOError OsRelease :=
  match opened with
  | .error e => .error e
  | .ok lns => .ok (from_iter (lns.filterMap Except.toOption))

/-- `OsRelease::new`, which is `from_file` at the fixed path
`/etc/os-release`; the argument models that file's open outcome. -/
def new (etcOsRelease : Except IOError (List (Except IOError String))) :
    Except IOError OsRelease :=
  match etcOsRelease with
  | .error e => .error e
  | .ok lns => .ok (from_iter (lns.filterMap Except.toOption))

/-! ### Basic properties of the matcher -/

theorem matchToks_litPre (xs : List Char) (ts : List Tok) (s : List Char)
    (caps : List (Nat × List Char)) :
    matchToks (xs.map Tok.lit ++ ts) (xs ++ s) caps = matchToks ts s caps := by
  induction xs with
  | nil => rfl
  | cons c xs ih => simp [matchToks, ih]

theorem matchToks_litPre_some (xs : List Char) (ts : List Tok) (s : List Char)
    (caps : List (Nat × List Char)) (r : MatchRes)
    (h : matchToks (xs.map Tok.lit ++ ts) s caps = some r) :
    ∃ s', s = xs ++ s' ∧ matchToks ts s' caps = some r := by
  induction xs generalizing s with
  | nil => exact ⟨s, rfl, h⟩
  | cons c xs ih =>
    match s with
    | [] => simp [matchToks] at h
    | c' :: s' =>
      simp only [List.map_cons, List.cons_append, matchToks] at h
      by_cases hc : c' = c
      · subst hc
        rw [if_pos rfl] at h
        obtain ⟨t, ht, hm⟩ := ih s' h
        exact ⟨t, by simp [ht], hm⟩
      · rw [if_neg hc] at h
        exact absurd h (by simp)

theorem tryFrom_some (f : List Char → List (Nat × List Char) → Option MatchRes)
    (n : Nat) (s : List Char) (caps : List (Nat × List Char)) (k : Nat) (r : MatchRes)
    (h : tryFrom f n s caps k = some r) :
    ∃ j, 1 ≤ j ∧ j ≤ k ∧ f (s.drop j) ((n, s.take j) :: caps) = some r := by
  induction k with
  | zero => exact absurd h (by simp [tryFrom])
  | succ k ih =>
    rw [tryFrom] at h
    split at h
    · rename_i heq
      exact ⟨k + 1, by omega, le_refl _, by rw [heq]; exact h⟩
    · obtain ⟨j, h1, h2, h3⟩ := ih h
      exact ⟨j, h1, by omega, h3⟩

theorem tryFrom_none (f : List Char → List (Nat × List Char) → Option MatchRes)
    (n : Nat) (s : List Char) (caps : List (Nat × List Char)) (k : Nat)
    (h : ∀ j, 1 ≤ j → j ≤ k → f (s.drop j) ((n, s.take j) :: caps) = none) :
    tryFrom f n s caps k = none := by
  induction k with
  | zero => rfl
  | succ k ih =>
    rw [tryFrom, h (k + 1) (by omega) (le_refl _)]
    exact ih (fun j hj1 hj2 => h j hj1 (by omega))

theorem tryFrom_first (f : List Char → List (Nat × List Char) → Option MatchRes)
    (n : Nat) (s : List Char) (caps : List (Nat × List Char)) (k : Nat) (r : MatchRes)
    (h : f (s.drop (k + 1)) ((n, s.take (k + 1)) :: caps) = some r) :
    tryFrom f n s caps (k + 1) = some r := by
  rw [tryFrom, h]

theorem takeWhile_append_all (p : Char → Bool) (v rest : List Char)
    (h : ∀ c ∈ v, p c = true) :
    (v ++ rest).takeWhile p = v ++ rest.takeWhile p := by
  induction v with
  | nil => rfl
  | cons c v ih =>
    simp [List.takeWhile_cons, h c (by simp), ih (fun c hc => h c (by simp [hc]))]

/-! ### Characterization of the anchored recognized-key pattern -/

theorem optEos_some (t : List Char) (caps : List (Nat × List Char)) (r : MatchRes)
    (h : matchToks [Tok.optChar '"', Tok.eos] t caps = some r) :
    (t = [] ∨ t = ['"']) ∧ r = ([], caps) := by
  match t with
  | [] =>
    simp only [matchToks] at h
    exact ⟨Or.inl rfl, by injection h; simp_all⟩
  | c :: t' =>
    simp only [matchToks] at h
    by_cases hc : c = '"'
    · subst hc
      rw [if_pos rfl] at h
      match t' with
      | [] =>
        simp only [matchToks] at h
        exact ⟨Or.inr rfl, by injection h; simp_all⟩
      | d :: t'' => simp [matchToks] at h
    · rw [if_neg hc] at h
      simp [matchToks] at h

theorem take_all_of_le_takeWhile (p : Char → Bool) (s : List Char) (j : Nat)
    (hj : j ≤ (s.takeWhile p).length) : ∀ c ∈ s.take j, p c = true := by
  intro c hc
  have hpre : s.take j = (s.takeWhile p).take j := by
    conv_lhs => rw [← List.takeWhile_append_dropWhile (p := p) (l := s)]
    exact List.take_append_of_le_length hj
  rw [hpre] at hc
  exact List.mem_takeWhile_imp (List.mem_of_mem_take hc)

theorem anchored_tail_some (s : List Char) (caps : List (Nat × List Char)) (r : MatchRes)
    (h : matchToks [Tok.plusGroup 1 valueChar, Tok.optChar '"', Tok.eos] s caps = some r) :
    ∃ v q2, s = v ++ q2 ∧ v ≠ [] ∧ (∀ c ∈ v, valueChar c = true) ∧
      (q2 = [] ∨ q2 = ['"']) ∧ r = ([], (1, v) :: caps) := by
  rw [show matchToks [Tok.plusGroup 1 valueChar, Tok.optChar '"', Tok.eos] s caps
      = tryFrom (matchToks [Tok.optChar '"', Tok.eos]) 1 s caps
          (s.takeWhile valueChar).length from rfl] at h
  obtain ⟨j, hj1, hj2, hf⟩ := tryFrom_some _ _ _ _ _ _ h
  obtain ⟨hq2, hr⟩ := optEos_some _ _ _ hf
  refine ⟨s.take j, s.drop j, (List.take_append_drop j s).symm, ?_, ?_, hq2, hr⟩
  · have hls : (s.takeWhile valueChar).length ≤ s.length := by
      have hsplit := List.takeWhile_append_dropWhile (p := valueChar) (l := s)
      calc (s.takeWhile valueChar).length
          ≤ (s.takeWhile valueChar).length + (s.dropWhile valueChar).length :=
            Nat.le_add_right _ _
        _ = s.length := by rw [← List.length_append, hsplit]
    have : (s.take j).length = j := by
      rw [List.length_take]
      omega
    intro hnil
    rw [hnil] at this
    simp at this
    omega
  · exact take_all_of_le_takeWhile valueChar s j hj2

theorem anchored_some (key : List Char) (s : List Char) (caps : List (Nat × List Char))
    (r : MatchRes) (h : matchToks (anchoredToks key) s caps = some r) :
    ∃ q1 v q2, s = key ++ '=' :: (q1 ++ v ++ q2) ∧ v ≠ [] ∧
      (∀ c ∈ v, valueChar c = true) ∧ (q1 = [] ∨ q1 = ['"']) ∧ (q2 = [] ∨ q2 = ['"']) ∧
      r = ([], (1, v) :: caps) := by
  have hkey : anchoredToks key = (key ++ ['=']).map Tok.lit ++
      [Tok.optChar '"', Tok.plusGroup 1 valueChar, Tok.optChar '"', Tok.eos] := by
    simp [anchoredToks]
  rw [hkey] at h
  obtain ⟨s1, hs1, h1⟩ := matchToks_litPre_some _ _ _ _ _ h
  match s1 with
  | [] => simp [matchToks, tryFrom] at h1
  | c :: s2 =>
    simp only [matchToks] at h1
    by_cases hc : c = '"'
    · subst hc
      rw [if_pos rfl] at h1
      revert h1
      split
      · rename_i r' heq
        intro h1
        injection h1 with h1
        subst h1
        obtain ⟨v, q2, hsv, hv, hval, hq2, hr⟩ := anchored_tail_some _ _ _ heq
        exact ⟨['"'], v, q2, by simp [hs1, hsv], hv, hval, Or.inr rfl, hq2, hr⟩
      · intro h1
        obtain ⟨v, q2, hsv, hv, hval, hq2, hr⟩ := anchored_tail_some _ _ _ h1
        exfalso
        cases v with
        | nil => exact hv rfl
        | cons c' v' =>
          have hc' : '"' = c' := by
            rw [List.cons_append] at hsv
            injection hsv
          have := hval c' (by simp)
          rw [← hc'] at this
          simp [valueChar] at this
    · rw [if_neg hc] at h1
      obtain ⟨v, q2, hsv, hv, hval, hq2, hr⟩ := anchored_tail_some _ _ _ h1
      exact ⟨[], v, q2, by simp [hs1, hsv], hv, hval, Or.inl rfl, hq2, hr⟩

theorem matchToks_optChar_hit (c : Char) (ts : List Tok) (s' : List Char)
    (caps : List (Nat × List Char)) (r : MatchRes) (h : matchToks ts s' caps = some r) :
    matchToks (Tok.optChar c :: ts) (c :: s') caps = some r := by
  simp [matchToks, h]

theorem matchToks_optChar_miss (c c' : Char) (ts : List Tok) (s' : List Char)
    (caps : List (Nat × List Char)) (hc : c' ≠ c) :
    matchToks (Tok.optChar c :: ts) (c' :: s') caps = matchToks ts (c' :: s') caps := by
  simp [matchToks, hc]

theorem anchored_tail_constructed (v q2 : List Char) (caps : List (Nat × List Char))
    (hv : v ≠ []) (hval : ∀ c ∈ v, valueChar c = true) (hq2 : q2 = [] ∨ q2 = ['"']) :
    matchToks [Tok.plusGroup 1 valueChar, Tok.optChar '"', Tok.eos] (v ++ q2) caps
      = some ([], (1, v) :: caps) := by
  have htw : ((v ++ q2).takeWhile valueChar) = v := by
    rw [takeWhile_append_all valueChar v q2 hval]
    rcases hq2 with h | h <;> subst h
    · simp
    · simp [show List.takeWhile valueChar ['"'] = [] from rfl]
  rw [show matchToks [Tok.plusGroup 1 valueChar, Tok.optChar '"', Tok.eos] (v ++ q2) caps
      = tryFrom (matchToks [Tok.optChar '"', Tok.eos]) 1 (v ++ q2) caps
          ((v ++ q2).takeWhile valueChar).length from rfl, htw]
  obtain ⟨m, hm⟩ : ∃ m, v.length = m + 1 := by
    cases v with
    | nil => exact absurd rfl hv
    | cons a l => exact ⟨l.length, rfl⟩
  rw [hm]
  apply tryFrom_first
  rw [← hm, List.take_left, List.drop_left]
  rcases hq2 with h | h <;> subst h <;> rfl

theorem anchored_constructed (key v q1 q2 : List Char) (caps : List (Nat × List Char))
    (hv : v ≠ []) (hval : ∀ c ∈ v, valueChar c = true)
    (hq1 : q1 = [] ∨ q1 = ['"']) (hq2 : q2 = [] ∨ q2 = ['"']) :
    matchToks (anchoredToks key) (key ++ '=' :: (q1 ++ v ++ q2)) caps
      = some ([], (1, v) :: caps) := by
  have hkey : anchoredToks key = (key ++ ['=']).map Tok.lit ++
      [Tok.optChar '"', Tok.plusGroup 1 valueChar, Tok.optChar '"', Tok.eos] := by
    simp [anchoredToks]
  have hs : key ++ '=' :: (q1 ++ v ++ q2) = (key ++ ['=']) ++ (q1 ++ (v ++ q2)) := by simp
  rw [hkey, hs, matchToks_litPre]
  rcases hq1 with h | h <;> subst h
  · cases v with
    | nil => exact absurd rfl hv
    | cons c v' =>
      have hc : ¬ c = '"' := by
        have := hval c (by simp)
        simpa [valueChar] using this
      have htail := anchored_tail_constructed (c :: v') q2 caps hv hval hq2
      rw [List.nil_append, List.cons_append]
      rw [List.cons_append] at htail
      rw [matchToks_optChar_miss _ _ _ _ _ hc]
      exact htail
  · have htail := anchored_tail_constructed v q2 caps hv hval hq2
    rw [List.cons_append, List.nil_append]
    exact matchToks_optChar_hit _ _ _ _ _ htail

/-! ### Mutual exclusion of the eleven anchored patterns -/

theorem anchoredCaps_some (key line : String) (caps : List (Nat × List Char))
    (h : anchoredCaps key line = some caps) :
    ∃ q1 v q2, line.data = key.data ++ '=' :: (q1 ++ v ++ q2) ∧ v ≠ [] ∧
      (∀ c ∈ v, valueChar c = true) ∧ (q1 = [] ∨ q1 = ['"']) ∧ (q2 = [] ∨ q2 = ['"']) ∧
      caps = [(1, v)] := by
  unfold anchoredCaps at h
  match hm : matchToks (anchoredToks key.data) line.data [] with
  | none => rw [hm] at h; exact absurd h (by simp)
  | some r =>
    rw [hm] at h
    obtain ⟨q1, v, q2, hline, hv, hval, hq1, hq2, hr⟩ := anchored_some _ _ _ _ hm
    refine ⟨q1, v, q2, hline, hv, hval, hq1, hq2, ?_⟩
    injection h with h
    rw [← h, hr]

theorem pre_total (a b l sa sb : List Char) (ha : a ++ sa = l) (hb : b ++ sb = l) :
    a = b.take a.length ∨ b = a.take b.length := by
  have h1 : a = l.take a.length := by rw [← ha, List.take_left]
  have h2 : b = l.take b.length := by rw [← hb, List.take_left]
  rcases Nat.le_total a.length b.length with h | h
  · left
    calc a = l.take a.length := h1
      _ = (l.take b.length).take a.length := by rw [List.take_take, min_eq_left h]
      _ = b.take a.length := by rw [← h2]
  · right
    calc b = l.take b.length := h2
      _ = (l.take a.length).take b.length := by rw [List.take_take, min_eq_left h]
      _ = a.take b.length := by rw [← h1]

theorem anchored_no_two_keys (k k' : Key) (line : String) (hne : k ≠ k')
    (caps caps' : List (Nat × List Char))
    (h : anchoredCaps (keyString k) line = some caps)
    (h' : anchoredCaps (keyString k') line = some caps') : False := by
  obtain ⟨q1, v, q2, hline, _, _, _, _, _⟩ := anchoredCaps_some _ _ _ h
  obtain ⟨p1, w, p2, hline', _, _, _, _, _⟩ := anchoredCaps_some _ _ _ h'
  have ha : ((keyString k).data ++ ['=']) ++ (q1 ++ v ++ q2) = line.data := by
    rw [hline]; simp
  have hb : ((keyString k').data ++ ['=']) ++ (p1 ++ w ++ p2) = line.data := by
    rw [hline']; simp
  have hd := pre_total _ _ _ _ _ ha hb
  cases k <;> cases k' <;> first
    | exact hne rfl
    | (revert hd; decide)

/-! ### Record-level lemmas about fields and the line processor -/

theorem getField_setField_same (os : OsRelease) (k : Key) (v : String) :
    getField (setField os k v) k = v := by
  cases k <;> rfl

theorem getField_setField_ne (os : OsRelease) (k k' : Key) (v : String) (h : k' ≠ k) :
    getField (setField os k v) k' = getField os k' := by
  cases k <;> cases k' <;> first | exact absurd rfl h | rfl

theorem extra_setField (os : OsRelease) (k : Key) (v : String) :
    (setField os k v).extra = os.extra := by
  cases k <;> rfl

theorem getField_extra_update (os : OsRelease) (e : List (String × String)) (k : Key) :
    getField { os with extra := e } k = getField os k := by
  cases k <;> rfl

theorem mem_keysInOrder (k : Key) : k ∈ keysInOrder := by
  cases k <;> simp [keysInOrder]

theorem anchoredCaps_none_of_other (k k' : Key) (line : String)
    (caps : List (Nat × List Char)) (hne : k' ≠ k)
    (h : anchoredCaps (keyString k) line = some caps) :
    anchoredCaps (keyString k') line = none := by
  match h0 : anchoredCaps (keyString k') line with
  | none => rfl
  | some c0 => exact (anchored_no_two_keys k' k line hne _ _ h0 h).elim

theorem recognizedCapture_some_iff (k : Key) (line : String) (v : List Char) :
    recognizedCapture k line = some v ↔ anchoredCaps (keyString k) line = some [(1, v)] := by
  constructor
  · intro h
    unfold recognizedCapture at h
    match hm : anchoredCaps (keyString k) line with
    | none => rw [hm] at h; exact absurd h (by simp)
    | some caps =>
      rw [hm] at h
      obtain ⟨q1, w, q2, _, _, _, _, _, hcaps⟩ := anchoredCaps_some _ _ _ hm
      subst hcaps
      have : w = v := by
        simpa [List.lookup] using h
      rw [← this]
  · intro h
    unfold recognizedCapture
    rw [h]
    rfl

theorem recognizedCapture_none_iff (k : Key) (line : String) :
    recognizedCapture k line = none ↔ anchoredCaps (keyString k) line = none := by
  constructor
  · intro h
    match hm : anchoredCaps (keyString k) line with
    | none => rfl
    | some caps =>
      obtain ⟨q1, w, q2, _, _, _, _, _, hcaps⟩ := anchoredCaps_some _ _ _ hm
      subst hcaps
      unfold recognizedCapture at h
      rw [hm] at h
      simp [List.lookup] at h
  · intro h
    unfold recognizedCapture
    rw [h]
    rfl

theorem stepRec_of_capture (k : Key) (line : String) (caps : List (Nat × List Char))
    (h : anchoredCaps (keyString k) line = some caps) :
    ∀ (ks : List Key) (os : OsRelease), k ∈ ks →
      stepRec os line ks = setField os k (capStr 1 caps) := by
  intro ks
  induction ks with
  | nil => intro os hk; simp at hk
  | cons k0 ks ih =>
    intro os hk
    by_cases hk0 : k0 = k
    · subst hk0
      simp only [stepRec, h]
    · have hnone : anchoredCaps (keyString k0) line = none :=
        anchoredCaps_none_of_other k k0 line caps hk0 h
      have hmem : k ∈ ks := by
        rcases List.mem_cons.mp hk with h' | h'
        · exact absurd h'.symm hk0
        · exact h'
      simp only [stepRec, hnone]
      exact ih os hmem

theorem step_of_capture (k : Key) (line : String) (v : List Char) (os : OsRelease)
    (h : recognizedCapture k line = some v) :
    step os line = setField os k ⟨v⟩ := by
  have hc := (recognizedCapture_some_iff k line v).mp h
  have := stepRec_of_capture k line [(1, v)] hc keysInOrder os (mem_keysInOrder k)
  rw [step, this]
  rfl

theorem stepRec_field_of_rc_none (k : Key) (line : String)
    (h : recognizedCapture k line = none) :
    ∀ (ks : List Key) (os : OsRelease), getField (stepRec os line ks) k = getField os k := by
  intro ks
  induction ks with
  | nil =>
    intro os
    simp only [stepRec]
    match genericCaps line with
    | some caps => exact getField_extra_update os _ k
    | none => rfl
  | cons k0 ks ih =>
    intro os
    simp only [stepRec]
    match hm : anchoredCaps (keyString k0) line with
    | some caps =>
      have hk0 : k0 ≠ k := by
        intro hEq
        subst hEq
        rw [(recognizedCapture_none_iff k0 line).mp h] at hm
        exact absurd hm (by simp)
      exact getField_setField_ne os k0 k _ (Ne.symm hk0)
    | none => exact ih os

theorem step_field_of_rc_none (k : Key) (line : String) (os : OsRelease)
    (h : recognizedCapture k line = none) :
    getField (step os line) k = getField os k :=
  stepRec_field_of_rc_none k line h keysInOrder os

/-! ### Unanchored search and presence of capture groups -/

theorem searchFrom_some (toks : List Tok) (s : List Char) (caps : List (Nat × List Char))
    (h : searchFrom toks s = some caps) :
    ∃ i r, matchToks toks (s.drop i) [] = some r ∧ caps = r.2 := by
  induction s with
  | nil =>
    unfold searchFrom at h
    match hm : matchToks toks [] [] with
    | none => rw [hm] at h; exact absurd h (by simp)
    | some r =>
      rw [hm] at h
      exact ⟨0, r, hm, by injection h with h; rw [← h]⟩
  | cons c s' ih =>
    unfold searchFrom at h
    revert h
    split
    · rename_i r heq
      intro h
      exact ⟨0, r, heq, by injection h with h; rw [← h]⟩
    · intro h
      obtain ⟨i, r, hm, hc⟩ := ih h
      exact ⟨i + 1, r, hm, hc⟩

theorem searchFrom_none_of_all (toks : List Tok) (s : List Char)
    (h : ∀ i, matchToks toks (s.drop i) [] = none) :
    searchFrom toks s = none := by
  induction s with
  | nil =>
    have h0 := h 0
    rw [List.drop_zero] at h0
    unfold searchFrom
    rw [h0]
    rfl
  | cons c s' ih =>
    have h0 := h 0
    rw [List.drop_zero] at h0
    unfold searchFrom
    rw [h0]
    exact ih (fun i => h (i + 1))

theorem lookup_isSome_of_mem (caps : List (Nat × List Char)) (n : Nat) (v : List Char)
    (h : (n, v) ∈ caps) : (caps.lookup n).isSome = true := by
  induction caps with
  | nil => simp at h
  | cons p caps ih =>
    obtain ⟨m, w⟩ := p
    by_cases hm : m = n
    · subst hm
      simp [List.lookup]
    · rcases List.mem_cons.mp h with h' | h'
      · exact absurd (congrArg Prod.fst h').symm hm
      · have hb : (n == m) = false := by simp [Ne.symm hm]
        simp only [List.lookup, hb]
        exact ih h'

theorem matchToks_caps_mono (toks : List Tok) (s : List Char)
    (caps : List (Nat × List Char)) (r : MatchRes)
    (h : matchToks toks s caps = some r) : ∀ x ∈ caps, x ∈ r.2 := by
  induction toks generalizing s caps r with
  | nil =>
    simp only [matchToks] at h
    injection h with h
    rw [← h]
    exact fun x hx => hx
  | cons t ts ih =>
    match t with
    | Tok.lit c =>
      match s with
      | [] => simp [matchToks] at h
      | c' :: s' =>
        simp only [matchToks] at h
        by_cases hc : c' = c
        · rw [if_pos hc] at h
          exact ih _ _ _ h
        · rw [if_neg hc] at h
          exact absurd h (by simp)
    | Tok.optChar c =>
      match s with
      | [] =>
        simp only [matchToks] at h
        exact ih _ _ _ h
      | c' :: s' =>
        simp only [matchToks] at h
        by_cases hc : c' = c
        · rw [if_pos hc] at h
          revert h
          split
          · rename_i r' heq
            intro h
            injection h with h
            rw [← h]
            exact ih _ _ _ heq
          · intro h
            exact ih _ _ _ h
        · rw [if_neg hc] at h
          exact ih _ _ _ h
    | Tok.eos =>
      match s with
      | [] =>
        simp only [matchToks] at h
        exact ih _ _ _ h
      | c' :: s' => simp [matchToks] at h
    | Tok.plusGroup n p =>
      simp only [matchToks] at h
      obtain ⟨j, _, _, hf⟩ := tryFrom_some _ _ _ _ _ _ h
      intro x hx
      exact ih _ _ _ hf x (by simp [hx])

theorem matchToks_group_mem (toks : List Tok) (s : List Char)
    (caps : List (Nat × List Char)) (r : MatchRes) (n : Nat) (p : Char → Bool)
    (h : matchToks toks s caps = some r) (hg : Tok.plusGroup n p ∈ toks) :
    ∃ v, (n, v) ∈ r.2 := by
  induction toks generalizing s caps r with
  | nil => simp at hg
  | cons t ts ih =>
    match t with
    | Tok.lit c =>
      have hg' : Tok.plusGroup n p ∈ ts := by
        rcases List.mem_cons.mp hg with h' | h'
        · exact absurd h' (by simp)
        · exact h'
      match s with
      | [] => simp [matchToks] at h
      | c' :: s' =>
        simp only [matchToks] at h
        by_cases hc : c' = c
        · rw [if_pos hc] at h
          exact ih _ _ _ h hg'
        · rw [if_neg hc] at h
          exact absurd h (by simp)
    | Tok.optChar c =>
      have hg' : Tok.plusGroup n p ∈ ts := by
        rcases List.mem_cons.mp hg with h' | h'
        · exact absurd h' (by simp)
        · exact h'
      match s with
      | [] =>
        simp only [matchToks] at h
        exact ih _ _ _ h hg'
      | c' :: s' =>
        simp only [matchToks] at h
        by_cases hc : c' = c
        · rw [if_pos hc] at h
          revert h
          split
          · rename_i r' heq
            intro h
            injection h with h
            rw [← h]
            exact ih _ _ _ heq hg'
          · intro h
            exact ih _ _ _ h hg'
        · rw [if_neg hc] at h
          exact ih _ _ _ h hg'
    | Tok.eos =>
      have hg' : Tok.plusGroup n p ∈ ts := by
        rcases List.mem_cons.mp hg with h' | h'
        · exact absurd h' (by simp)
        · exact h'
      match s with
      | [] =>
        simp only [matchToks] at h
        exact ih _ _ _ h hg'
      | c' :: s' => simp [matchToks] at h
    | Tok.plusGroup n' p' =>
      simp only [matchToks] at h
      obtain ⟨j, _, _, hf⟩ := tryFrom_some _ _ _ _ _ _ h
      rcases List.mem_cons.mp hg with h' | h'
      · have hn : n' = n := by
          injection h' with h1 h2
          exact h1.symm
        subst hn
        exact ⟨s.take j, matchToks_caps_mono _ _ _ _ hf _ (by simp)⟩
      · exact ih _ _ _ hf h'

/-! ### Structure of generic-pattern matches -/

theorem takeWhile_length_le (p : Char → Bool) (s : List Char) :
    (s.takeWhile p).length ≤ s.length := by
  have hsplit := List.takeWhile_append_dropWhile (p := p) (l := s)
  calc (s.takeWhile p).length
      ≤ (s.takeWhile p).length + (s.dropWhile p).length := Nat.le_add_right _ _
    _ = s.length := by rw [← List.length_append, hsplit]

theorem take_ne_nil (s : List Char) (j : Nat) (hj1 : 1 ≤ j) (hle : j ≤ s.length) :
    s.take j ≠ [] := by
  intro hnil
  have hlen := congrArg List.length hnil
  rw [List.length_take] at hlen
  simp only [List.length_nil] at hlen
  omega

theorem matchToks_optChar_last (c : Char) (t : List Char) (caps : List (Nat × List Char))
    (r : MatchRes) (h : matchToks [Tok.optChar c] t caps = some r) : r.2 = caps := by
  match t with
  | [] =>
    simp only [matchToks] at h
    injection h with h
    rw [← h]
  | c' :: t' =>
    simp only [matchToks] at h
    by_cases hc : c' = c
    · rw [if_pos hc] at h
      injection h with h
      rw [← h]
    · rw [if_neg hc] at h
      injection h with h
      rw [← h]

theorem plus2_tail_caps (u : List Char) (caps1 : List (Nat × List Char)) (r : MatchRes)
    (h : matchToks [Tok.plusGroup 2 valueChar, Tok.optChar '"'] u caps1 = some r) :
    ∃ v2, r.2 = (2, v2) :: caps1 := by
  simp only [matchToks] at h
  obtain ⟨j, _, _, hf⟩ := tryFrom_some _ _ _ _ _ _ h
  exact ⟨u.take j, by rw [matchToks_optChar_last _ _ _ _ hf]⟩

theorem generic_struct (s : List Char) (caps : List (Nat × List Char)) (r : MatchRes)
    (h : matchToks genericToks s caps = some r) :
    '=' ∈ s ∧ ∃ v1 v2, (∀ c ∈ v1, isWordChar c = true) ∧ v1 ≠ [] ∧
      r.2 = (2, v2) :: (1, v1) :: caps := by
  rw [show matchToks genericToks s caps
      = tryFrom (matchToks [Tok.lit '=', Tok.optChar '"', Tok.plusGroup 2 valueChar,
          Tok.optChar '"']) 1 s caps ((s.takeWhile isWordChar).length) from rfl] at h
  obtain ⟨j, hj1, hj2, hf⟩ := tryFrom_some _ _ _ _ _ _ h
  have hv1w : ∀ c ∈ s.take j, isWordChar c = true := take_all_of_le_takeWhile _ _ _ hj2
  have hv1ne : s.take j ≠ [] :=
    take_ne_nil s j hj1 (le_trans hj2 (takeWhile_length_le _ _))
  match hu : s.drop j with
  | [] => rw [hu] at hf; simp [matchToks] at hf
  | c :: u1 =>
    rw [hu] at hf
    simp only [matchToks] at hf
    by_cases hc : c = '='
    · rw [if_pos hc] at hf
      have hmem : '=' ∈ s := by
        have : '=' ∈ s.drop j := by rw [hu, hc]; simp
        exact List.mem_of_mem_drop this
      refine ⟨hmem, ?_⟩
      match u1, hf with
      | [], hf => simp [matchToks, tryFrom] at hf
      | c1 :: u2, hf =>
        simp only [matchToks] at hf
        by_cases hc1 : c1 = '"'
        · rw [if_pos hc1] at hf
          revert hf
          split
          · rename_i r' heq
            intro hf
            injection hf with hf
            obtain ⟨v2, hv2⟩ := plus2_tail_caps _ _ _ heq
            exact ⟨s.take j, v2, hv1w, hv1ne, by rw [← hf, hv2]⟩
          · intro hf
            obtain ⟨v2, hv2⟩ := plus2_tail_caps _ _ _ hf
            exact ⟨s.take j, v2, hv1w, hv1ne, hv2⟩
        · rw [if_neg hc1] at hf
          obtain ⟨v2, hv2⟩ := plus2_tail_caps _ _ _ hf
          exact ⟨s.take j, v2, hv1w, hv1ne, hv2⟩
    · rw [if_neg hc] at hf
      exact absurd hf (by simp)

theorem genericCaps_struct (line : String) (caps : List (Nat × List Char))
    (h : genericCaps line = some caps) :
    '=' ∈ line.data ∧ ∃ v1 v2, (∀ c ∈ v1, isWordChar c = true) ∧ v1 ≠ [] ∧
      caps = [(2, v2), (1, v1)] := by
  obtain ⟨i, r, hm, hcaps⟩ := searchFrom_some _ _ _ h
  obtain ⟨hmem, v1, v2, hw, hne, hr2⟩ := generic_struct _ _ _ hm
  exact ⟨List.mem_of_mem_drop hmem, v1, v2, hw, hne, by rw [hcaps, hr2]⟩

theorem genericCaps_none_of_no_eq (line : String) (h : '=' ∉ line.data) :
    genericCaps line = none := by
  apply searchFrom_none_of_all
  intro i
  match hm : matchToks genericToks (line.data.drop i) [] with
  | none => rfl
  | some r =>
    exact absurd (List.mem_of_mem_drop (generic_struct _ _ _ hm).1) h

/-! ### The extra map and the shape of one processing step -/

theorem lookup_insertSorted_isSome (m : List (String × String)) (k v key : String)
    (h : ((insertSorted m k v).lookup key).isSome = true) :
    key = k ∨ (m.lookup key).isSome = true := by
  induction m with
  | nil =>
    by_cases hk : key = k
    · exact Or.inl hk
    · exfalso
      have hb : (key == k) = false := by simp [hk]
      simp [insertSorted, List.lookup, hb] at h
  | cons p m ih =>
    obtain ⟨k', v'⟩ := p
    by_cases h1 : k < k'
    · by_cases hk : key = k
      · exact Or.inl hk
      · have hb : (key == k) = false := by simp [hk]
        simp only [insertSorted, if_pos h1, List.lookup, hb] at h
        exact Or.inr h
    · by_cases h2 : k = k'
      · by_cases hk : key = k
        · exact Or.inl hk
        · have hb : (key == k) = false := by simp [hk]
          simp only [insertSorted, if_neg h1, if_pos h2, List.lookup, hb] at h
          have hb' : (key == k') = false := by
            have : key ≠ k' := by rw [← h2]; exact hk
            simp [this]
          right
          simp [List.lookup, hb', h]
      · by_cases hk' : key = k'
        · right
          have hb' : (key == k') = true := by simp [hk']
          simp [List.lookup, hb']
        · have hb' : (key == k') = false := by simp [hk']
          simp only [insertSorted, if_neg h1, if_neg h2, List.lookup, hb'] at h
          rcases ih h with h' | h'
          · exact Or.inl h'
          · right
            simp [List.lookup, hb', h']

theorem stepRec_extra_shape (line : String) (ks : List Key) (os : OsRelease) :
    (stepRec os line ks).extra = os.extra ∨
      ((∀ k ∈ ks, anchoredCaps (keyString k) line = none) ∧
        ∃ caps, genericCaps line = some caps ∧
          (stepRec os line ks).extra = insertSorted os.extra (capStr 1 caps) (capStr 2 caps)) := by
  induction ks with
  | nil =>
    simp only [stepRec]
    match genericCaps line with
    | some caps => exact Or.inr ⟨by simp, caps, rfl, rfl⟩
    | none => exact Or.inl rfl
  | cons k0 ks ih =>
    simp only [stepRec]
    match hm : anchoredCaps (keyString k0) line with
    | some caps => exact Or.inl (extra_setField os k0 _)
    | none =>
      rcases ih with h | ⟨hall, caps, hgc, hextra⟩
      · exact Or.inl h
      · refine Or.inr ⟨?_, caps, hgc, hextra⟩
        intro k hk
        rcases List.mem_cons.mp hk with h' | h'
        · rw [h']; exact hm
        · exact hall k h'

theorem stepRec_shape (line : String) (ks : List Key) (os : OsRelease) :
    (∃ k v, stepRec os line ks = setField os k v) ∨
      (∀ k, getField (stepRec os line ks) k = getField os k) := by
  induction ks with
  | nil =>
    simp only [stepRec]
    match genericCaps line with
    | some caps => exact Or.inr (fun k => getField_extra_update os _ k)
    | none => exact Or.inr (fun k => rfl)
  | cons k0 ks ih =>
    simp only [stepRec]
    match anchoredCaps (keyString k0) line with
    | some caps => exact Or.inl ⟨k0, capStr 1 caps, rfl⟩
    | none => exact ih

theorem stepRec_id_of_none (os : OsRelease) (line : String)
    (hanch : ∀ k : Key, anchoredCaps (keyString k) line = none)
    (hgen : genericCaps line = none) :
    ∀ ks, stepRec os line ks = os := by
  intro ks
  induction ks with
  | nil => simp only [stepRec, hgen]
  | cons k0 ks ih =>
    simp only [stepRec, hanch k0]
    exact ih

theorem step_no_eq (os : OsRelease) (line : String) (h : '=' ∉ line.data) :
    step os line = os := by
  have hanch : ∀ k : Key, anchoredCaps (keyString k) line = none := by
    intro k
    match hm : anchoredCaps (keyString k) line with
    | none => rfl
    | some caps =>
      obtain ⟨q1, v, q2, hline, _, _, _, _, _⟩ := anchoredCaps_some _ _ _ hm
      exact absurd (show '=' ∈ line.data by rw [hline]; simp) h
  exact stepRec_id_of_none os line hanch (genericCaps_none_of_no_eq line h) keysInOrder

theorem step_no_match (os : OsRelease) (line : String)
    (hanch : ∀ k : Key, recognizedCapture k line = none)
    (hgen : genericCaps line = none) : step os line = os :=
  stepRec_id_of_none os line
    (fun k => (recognizedCapture_none_iff k line).mp (hanch k)) hgen keysInOrder

/-! ### Lines of the form `K=` and `K=""` match nothing -/

theorem keyString_word (k : Key) : ∀ c ∈ (keyString k).data, isWordChar c = true := by
  cases k <;> decide

theorem word_eq_split (A : List Char) : ∀ (B u r : List Char),
    (∀ c ∈ A, isWordChar c = true) → (∀ c ∈ B, isWordChar c = true) →
    A ++ '=' :: u = B ++ '=' :: r → A = B ∧ u = r := by
  induction A with
  | nil =>
    intro B u r hA hB h
    cases B with
    | nil => simpa using h
    | cons b B' =>
      exfalso
      rw [List.nil_append, List.cons_append] at h
      have hb : '=' = b := by injection h
      have := hB b (by simp)
      rw [← hb] at this
      exact absurd this (by decide)
  | cons a A' ih =>
    intro B u r hA hB h
    cases B with
    | nil =>
      exfalso
      rw [List.nil_append, List.cons_append] at h
      have ha : a = '=' := by injection h
      have := hA a (by simp)
      rw [ha] at this
      exact absurd this (by decide)
    | cons b B' =>
      rw [List.cons_append, List.cons_append] at h
      have hab : a = b := by injection h
      have htl : A' ++ '=' :: u = B' ++ '=' :: r := by injection h
      obtain ⟨h1, h2⟩ := ih B' u r (fun c hc => hA c (by simp [hc]))
        (fun c hc => hB c (by simp [hc])) htl
      exact ⟨by rw [hab, h1], h2⟩

theorem matchToks_lit_cons_ne (c c' : Char) (ts : List Tok) (s' : List Char)
    (caps : List (Nat × List Char)) (h : ¬ c' = c) :
    matchToks (Tok.lit c :: ts) (c' :: s') caps = none := by
  simp [matchToks, h]

theorem generic_fail_word (W tail : List Char) (caps : List (Nat × List Char))
    (hW : ∀ c ∈ W, isWordChar c = true)
    (hhead : tail.takeWhile isWordChar = [])
    (htail : ∀ caps', matchToks [Tok.lit '=', Tok.optChar '"', Tok.plusGroup 2 valueChar,
        Tok.optChar '"'] tail caps' = none) :
    matchToks genericToks (W ++ tail) caps = none := by
  rw [show matchToks genericToks (W ++ tail) caps
      = tryFrom (matchToks [Tok.lit '=', Tok.optChar '"', Tok.plusGroup 2 valueChar,
          Tok.optChar '"']) 1 (W ++ tail) caps (((W ++ tail).takeWhile isWordChar).length)
        from rfl]
  rw [takeWhile_append_all isWordChar W tail hW, hhead, List.append_nil]
  apply tryFrom_none
  intro j hj1 hj2
  by_cases hjW : j < W.length
  · have hdrop : (W ++ tail).drop j = W.drop j ++ tail :=
      List.drop_append_of_le_length (le_of_lt hjW)
    match hWd : W.drop j with
    | [] =>
      exfalso
      have := congrArg List.length hWd
      rw [List.length_drop] at this
      simp at this
      omega
    | c :: rest =>
      have hcW : c ∈ W := List.mem_of_mem_drop (by rw [hWd]; simp)
      have hcw := hW c hcW
      have hcne : ¬ c = '=' := by
        intro hEq
        rw [hEq] at hcw
        exact absurd hcw (by decide)
      rw [hdrop, hWd, List.cons_append]
      exact matchToks_lit_cons_ne _ _ _ _ _ hcne
  · have hjW' : j = W.length := by omega
    rw [hjW', List.drop_left]
    exact htail _

theorem searchFrom_generic_word (tail : List Char)
    (hhead : tail.takeWhile isWordChar = [])
    (htail : ∀ caps', matchToks [Tok.lit '=', Tok.optChar '"', Tok.plusGroup 2 valueChar,
        Tok.optChar '"'] tail caps' = none)
    (hstail : searchFrom genericToks tail = none) :
    ∀ W : List Char, (∀ c ∈ W, isWordChar c = true) →
      searchFrom genericToks (W ++ tail) = none := by
  intro W
  induction W with
  | nil => intro _; exact hstail
  | cons c W' ih =>
    intro hW
    have hfail := generic_fail_word (c :: W') tail [] hW hhead htail
    rw [List.cons_append] at hfail
    rw [List.cons_append]
    unfold searchFrom
    rw [hfail]
    exact ih (fun c' hc' => hW c' (by simp [hc']))

theorem anchored_none_wordkey (k : Key) (K : String)
    (hK : ∀ c ∈ K.data, isWordChar c = true) (u : List Char)
    (hu : ∀ (q1 v q2 : List Char), v ≠ [] → (∀ c ∈ v, valueChar c = true) →
        (q1 = [] ∨ q1 = ['"']) → (q2 = [] ∨ q2 = ['"']) → u ≠ q1 ++ v ++ q2)
    (line : String) (hline : line.data = K.data ++ '=' :: u) :
    anchoredCaps (keyString k) line = none := by
  match hm : anchoredCaps (keyString k) line with
  | none => rfl
  | some caps =>
    exfalso
    obtain ⟨q1, v, q2, hdec, hv, hval, hq1, hq2, _⟩ := anchoredCaps_some _ _ _ hm
    rw [hline] at hdec
    obtain ⟨_, hu'⟩ := word_eq_split K.data _ _ _ hK (keyString_word k) hdec
    exact hu q1 v q2 hv hval hq1 hq2 hu'

theorem empty_u_no_value (q1 v q2 : List Char) (hv : v ≠ [])
    (_hval : ∀ c ∈ v, valueChar c = true) (_hq1 : q1 = [] ∨ q1 = ['"'])
    (_hq2 : q2 = [] ∨ q2 = ['"']) : ([] : List Char) ≠ q1 ++ v ++ q2 := by
  intro hEq
  have hlen := congrArg List.length hEq
  simp only [List.length_nil, List.length_append] at hlen
  have : v.length ≠ 0 := fun h0 => hv (List.length_eq_zero.mp h0)
  omega

theorem qq_u_no_value (q1 v q2 : List Char) (hv : v ≠ [])
    (hval : ∀ c ∈ v, valueChar c = true) (hq1 : q1 = [] ∨ q1 = ['"'])
    (hq2 : q2 = [] ∨ q2 = ['"']) : ['"', '"'] ≠ q1 ++ v ++ q2 := by
  intro hEq
  rcases hq1 with h1 | h1 <;> subst h1
  · cases v with
    | nil => exact hv rfl
    | cons c v' =>
      rw [List.nil_append, List.cons_append] at hEq
      have hc : '"' = c := by injection hEq
      have := hval c (by simp)
      rw [← hc] at this
      exact absurd this (by decide)
  · rw [List.append_assoc, List.cons_append, List.nil_append] at hEq
    have htl : ['"'] = v ++ q2 := by injection hEq
    rcases hq2 with h2 | h2 <;> subst h2
    · rw [List.append_nil] at htl
      cases v with
      | nil => exact hv rfl
      | cons c v' =>
        have hc : '"' = c := by injection htl
        have := hval c (by simp)
        rw [← hc] at this
        exact absurd this (by decide)
    · have hlen := congrArg List.length htl
      simp only [List.length_append, List.length_cons, List.length_nil] at hlen
      have : v.length = 0 := by omega
      exact hv (List.length_eq_zero.mp this)

theorem step_empty_value (K : String) (hK : ∀ c ∈ K.data, isWordChar c = true)
    (os : OsRelease) : step os (K ++ "=") = os ∧ step os (K ++ "=\"\"") = os := by
  have hd1 : (K ++ "=").data = K.data ++ '=' :: [] := rfl
  have hd2 : (K ++ "=\"\"").data = K.data ++ '=' :: ['"', '"'] := rfl
  have ha1 : ∀ k : Key, anchoredCaps (keyString k) (K ++ "=") = none :=
    fun k => anchored_none_wordkey k K hK [] empty_u_no_value _ hd1
  have ha2 : ∀ k : Key, anchoredCaps (keyString k) (K ++ "=\"\"") = none :=
    fun k => anchored_none_wordkey k K hK ['"', '"'] qq_u_no_value _ hd2
  have hg1 : genericCaps (K ++ "=") = none := by
    unfold genericCaps
    rw [hd1]
    exact searchFrom_generic_word ['='] (by decide) (fun caps' => rfl) rfl K.data hK
  have hg2 : genericCaps (K ++ "=\"\"") = none := by
    unfold genericCaps
    rw [hd2]
    exact searchFrom_generic_word ['=', '"', '"'] (by decide) (fun caps' => rfl) rfl K.data hK
  exact ⟨stepRec_id_of_none os _ ha1 hg1 keysInOrder,
    stepRec_id_of_none os _ ha2 hg2 keysInOrder⟩

/-! ### Folding over the lines -/

theorem foldl_field_of_no_match (k : Key) :
    ∀ (post : List String), (∀ l ∈ post, recognizedCapture k l = none) →
      ∀ os : OsRelease, getField (post.foldl step os) k = getField os k := by
  intro post
  induction post with
  | nil => intro _ os; rfl
  | cons l post ih =>
    intro h os
    rw [List.foldl_cons, ih (fun l' hl' => h l' (by simp [hl']))]
    exact step_field_of_rc_none k l os (h l (by simp))

theorem foldl_extra_key (key : String) :
    ∀ (lines : List String) (os : OsRelease),
      (((lines.foldl step os).extra.lookup key).isSome = true) →
      ((os.extra.lookup key).isSome = true) ∨
        ∃ line ∈ lines, (∀ k : Key, anchoredCaps (keyString k) line = none) ∧
          ∃ caps, genericCaps line = some caps ∧ capStr 1 caps = key := by
  intro lines
  induction lines with
  | nil => intro os h; exact Or.inl h
  | cons l lines ih =>
    intro os h
    rw [List.foldl_cons] at h
    rcases ih (step os l) h with h' | h'
    · rcases stepRec_extra_shape l keysInOrder os with hsame | ⟨hall, caps, hgc, hextra⟩
      · unfold step at h'
        rw [hsame] at h'
        exact Or.inl h'
      · unfold step at h'
        rw [hextra] at h'
        rcases lookup_insertSorted_isSome _ _ _ _ h' with hk | hk
        · exact Or.inr ⟨l, by simp, fun k => hall k (mem_keysInOrder k), caps, hgc, hk.symm⟩
        · exact Or.inl hk
    · obtain ⟨line, hmem, rest⟩ := h'
      exact Or.inr ⟨line, by simp [hmem], rest⟩

theorem keyString_head (k : Key) :
    ∃ c0 t, (keyString k).data = c0 :: t ∧ c0.isWhitespace = false := by
  cases k <;> exact ⟨_, _, rfl, by decide⟩

theorem recognizedCapture_of_data (k : Key) (line : String) (v q1 q2 : List Char)
    (hdec : line.data = (keyString k).data ++ '=' :: (q1 ++ v ++ q2))
    (hv : v ≠ []) (hval : ∀ c ∈ v, valueChar c = true)
    (hq1 : q1 = [] ∨ q1 = ['"']) (hq2 : q2 = [] ∨ q2 = ['"']) :
    recognizedCapture k line = some v := by
  apply (recognizedCapture_some_iff k line v).mpr
  unfold anchoredCaps
  rw [hdec, anchored_constructed _ _ _ _ _ hv hval hq1 hq2]
  rfl

/-! ### The claims -/

/-- C2: a single line that matches one of the eleven anchored
recognized-key patterns has the captured value assigned to the
corresponding field, and no entry is inserted into the extra map: the
macro's `continue` skips the generic pattern for such a line. -/
theorem c2_recognized_line_sets_field_only (line : String) (k : Key) (v : List Char)
    (os : OsRelease) (h : recognizedCapture k line = some v) :
    getField (step os line) k = ⟨v⟩ ∧ (step os line).extra = os.extra := by
  rw [step_of_capture k line v os h]
  exact ⟨getField_setField_same os k ⟨v⟩, extra_setField os k ⟨v⟩⟩

theorem c2_witness :
    recognizedCapture Key.id "ID=arch" = some "arch".data ∧
      (getField (step default "ID=arch") Key.id = ⟨"arch".data⟩ ∧
        (step default "ID=arch").extra = default.extra) :=
  ⟨by decide, c2_recognized_line_sets_field_only "ID=arch" Key.id "arch".data default
    (by decide)⟩

/-- C4 (counterexample): a read error on a line after a successful open is
silently discarded by `flat_map(|line| line)`, and `from_file` still
returns `Ok` — contradicting "error if and only if the file cannot be
opened or read". -/
theorem c4_counterexample :
    from_file (Except.ok [Except.error "read failure"]) = Except.ok default := rfl

/-- C4 (amended): `from_file` and `new` return an error exactly when the
open step fails (`?` propagates it); on a successful open they always
return `Ok` — parsing never fails, and per-line read errors are dropped. -/
theorem c4_open_error_only :
    (∀ e : IOError, from_file (Except.error e) = Except.error e) ∧
      (∀ lns, ∃ os : OsRelease, from_file (Except.ok lns) = Except.ok os) ∧
      (∀ e : IOError, new (Except.error e) = Except.error e) ∧
      (∀ lns, ∃ os : OsRelease, new (Except.ok lns) = Except.ok os) :=
  ⟨fun _ => rfl, fun _ => ⟨_, rfl⟩, fun _ => rfl, fun _ => ⟨_, rfl⟩⟩

/-- C6: when several lines match the same recognized key, the field of the
parsed record holds the value captured from the last such line. -/
theorem c6_last_write_wins (pre post : List String) (line : String) (k : Key)
    (v : List Char) (hline : recognizedCapture k line = some v)
    (hpost : ∀ l ∈ post, recognizedCapture k l = none) :
    getField (from_iter (pre ++ line :: post)) k = ⟨v⟩ := by
  unfold from_iter
  rw [List.foldl_append, List.foldl_cons, foldl_field_of_no_match k post hpost,
    step_of_capture k line v _ hline]
  exact getField_setField_same _ k ⟨v⟩

theorem c6_witness :
    recognizedCapture Key.name "NAME=Second" = some "Second".data ∧
      getField (from_iter (["NAME=First"] ++ "NAME=Second" :: [])) Key.name = "Second" :=
  ⟨by decide, c6_last_write_wins ["NAME=First"] [] "NAME=Second" Key.name "Second".data
    (by decide) (fun l hl => absurd hl (by simp))⟩

/-- C7: processing one line modifies at most one recognized field: if some
field changed, every other recognized field is unchanged. -/
theorem c7_at_most_one_field (os : OsRelease) (line : String) (k1 k2 : Key)
    (hne : k1 ≠ k2) (hch : getField (step os line) k1 ≠ getField os k1) :
    getField (step os line) k2 = getField os k2 := by
  rcases stepRec_shape line keysInOrder os with ⟨k, v, hEq⟩ | hall
  · unfold step at hch ⊢
    rw [hEq] at hch ⊢
    by_cases hk1 : k1 = k
    · subst hk1
      exact getField_setField_ne os k1 k2 v (Ne.symm hne)
    · exact absurd (getField_setField_ne os k k1 v hk1) hch
  · exact absurd (hall k1) hch

theorem c7_witness :
    (Key.name ≠ Key.version) ∧
      (getField (step default "NAME=x") Key.name ≠ getField default Key.name) ∧
      getField (step default "NAME=x") Key.version = getField default Key.version :=
  ⟨by decide, by decide,
    c7_at_most_one_field default "NAME=x" Key.name Key.version (by decide) (by decide)⟩

/-- C8: an empty-value line `K=` or `K=""` for any key `K` (a string of
word characters, recognized or not) contributes nothing: no recognized
field is set and nothing is inserted into the extra map. -/
theorem c8_empty_value (K : String) (os : OsRelease)
    (hK : ∀ c ∈ K.data, isWordChar c = true) :
    step os (K ++ "=") = os ∧ step os (K ++ "=\"\"") = os :=
  step_empty_value K hK os

theorem c8_witness :
    (∀ c ∈ ("FOO" : String).data, isWordChar c = true) ∧
      step default ("FOO" ++ "=") = default ∧ step default ("FOO" ++ "=\"\"") = default :=
  ⟨by decide, c8_empty_value "FOO" default (by decide)⟩

/-- C9 (counterexample): a comment line is not always ignored: the
unanchored generic pattern finds `VERSION_ID=7` inside `# VERSION_ID=7`
and inserts it into the extra map. -/
theorem c9_counterexample :
    ((from_iter ["# VERSION_ID=7"]).extra.lookup "VERSION_ID") = some "7" := by decide

/-- C9 (amended): blank lines are ignored, and a line — comment or
malformed — on which none of the eleven anchored patterns and not the
generic pattern matches is silently ignored; a comment line containing a
`key=value` fragment is still picked up by the generic pattern. -/
theorem c9_ignored_lines (os : OsRelease) :
    step os "" = os ∧
      ∀ line : String, (∀ k : Key, recognizedCapture k line = none) →
        genericCaps line = none → step os line = os :=
  ⟨rfl, fun line h1 h2 => step_no_match os line h1 h2⟩

theorem c9_witness :
    step default "" = default ∧ step default "#comment" = default :=
  ⟨(c9_ignored_lines default).1,
    (c9_ignored_lines default).2 "#comment" (fun k => by cases k <;> rfl) rfl⟩

/-- C10: parsing never panics: whenever an anchored recognized-key regex
matches a line, capture group 1 is present (the `unwrap` in the macro
cannot fail), and whenever the generic pattern matches, capture groups 1
and 2 are present (`cap[1]` and `cap[2]` cannot fail). -/
theorem c10_captures_present (line : String) :
    (∀ (k : Key) (caps : List (Nat × List Char)),
        anchoredCaps (keyString k) line = some caps → (caps.lookup 1).isSome = true) ∧
      (∀ caps : List (Nat × List Char), genericCaps line = some caps →
        (caps.lookup 1).isSome = true ∧ (caps.lookup 2).isSome = true) := by
  constructor
  · intro k caps h
    obtain ⟨q1, v, q2, _, _, _, _, _, hcaps⟩ := anchoredCaps_some _ _ _ h
    subst hcaps
    simp [List.lookup]
  · intro caps h
    obtain ⟨_, v1, v2, _, _, hcaps⟩ := genericCaps_struct _ _ h
    subst hcaps
    constructor <;> simp [List.lookup]

theorem c10_witness :
    anchoredCaps (keyString Key.name) "NAME=x" = some [(1, "x".data)] ∧
      (([(1, "x".data)] : List (Nat × List Char)).lookup 1).isSome = true ∧
      genericCaps "E=2" = some [(2, "2".data), (1, "E".data)] ∧
      (([(2, "2".data), (1, "E".data)] : List (Nat × List Char)).lookup 1).isSome = true ∧
      (([(2, "2".data), (1, "E".data)] : List (Nat × List Char)).lookup 2).isSome = true :=
  ⟨by decide, (c10_captures_present "NAME=x").1 Key.name _ (by decide), by decide,
    ((c10_captures_present "E=2").2 _ (by decide)).1,
    ((c10_captures_present "E=2").2 _ (by decide)).2⟩

/-- C1 (counterexample): the extra map can contain a recognized key name:
on the single line `" NAME=foo"` (leading space) the anchored `NAME`
pattern fails, but the unanchored generic pattern still finds `NAME=foo`,
so the recognized key `NAME` is inserted into the extra map. -/
theorem c1_counterexample :
    ((from_iter [" NAME=foo"]).extra.lookup "NAME") = some "foo" := by decide

/-- C1 (amended): the extra map contains a recognized key name only when
some input line fails all eleven anchored patterns and the generic
pattern matches it with that key name as capture 1; in particular a line
matched by an anchored recognized pattern never contributes to extra. -/
theorem c1_extra_recognized_key_source (lines : List String) (k : Key)
    (h : ((from_iter lines).extra.lookup (keyString k)).isSome = true) :
    ∃ line ∈ lines, (∀ k' : Key, recognizedCapture k' line = none) ∧
      ∃ caps, genericCaps line = some caps ∧ capStr 1 caps = keyString k := by
  unfold from_iter at h
  rcases foldl_extra_key (keyString k) lines default h with h' | h'
  · rw [show (default : OsRelease).extra = [] from rfl] at h'
    simp [List.lookup] at h'
  · obtain ⟨line, hmem, hall, caps, hgc, hcap⟩ := h'
    exact ⟨line, hmem, fun k' => (recognizedCapture_none_iff k' line).mpr (hall k'),
      caps, hgc, hcap⟩

theorem c1_witness :
    (((from_iter [" NAME=foo"]).extra.lookup (keyString Key.name)).isSome = true) ∧
      ∃ line ∈ [" NAME=foo"], (∀ k' : Key, recognizedCapture k' line = none) ∧
        ∃ caps, genericCaps line = some caps ∧ capStr 1 caps = keyString Key.name :=
  ⟨by decide, c1_extra_recognized_key_source [" NAME=foo"] Key.name (by decide)⟩

/-- C3 (counterexample): a recognized-key line preceded by a tab is not
ignored: it fails the anchored patterns but the generic pattern matches,
so the pair is inserted into the extra map. -/
theorem c3_counterexample :
    (from_iter ["\tID=arch"]).extra = [("ID", "arch")] := by decide

/-- C3 (amended): a line containing no `=` contributes nothing at all; a
line whose first character is whitespace leaves every recognized field
unchanged (though, unlike the claim, it may still add to the extra map). -/
theorem c3_no_eq_or_leading_ws :
    (∀ (os : OsRelease) (line : String), '=' ∉ line.data → step os line = os) ∧
      (∀ (os : OsRelease) (line : String) (c : Char) (rest : List Char),
        line.data = c :: rest → c.isWhitespace = true →
        ∀ k : Key, getField (step os line) k = getField os k) := by
  refine ⟨fun os line h => step_no_eq os line h, ?_⟩
  intro os line c rest hline hw k
  have hanch : ∀ k' : Key, anchoredCaps (keyString k') line = none := by
    intro k'
    match hm : anchoredCaps (keyString k') line with
    | none => rfl
    | some caps =>
      exfalso
      obtain ⟨q1, v, q2, hdec, _, _, _, _, _⟩ := anchoredCaps_some _ _ _ hm
      rw [hline] at hdec
      obtain ⟨c0, t, hk0, hw0⟩ := keyString_head k'
      rw [hk0, List.cons_append] at hdec
      have hc : c = c0 := by injection hdec
      rw [hc, hw0] at hw
      simp at hw
  exact stepRec_field_of_rc_none k line
    ((recognizedCapture_none_iff k line).mpr (hanch k)) keysInOrder os

theorem c3_witness :
    ('=' ∉ ("hello" : String).data) ∧ step default "hello" = default ∧
      ((" NAME=x" : String).data = ' ' :: "NAME=x".data) ∧ (' '.isWhitespace = true) ∧
      getField (step default " NAME=x") Key.name = getField default Key.name :=
  ⟨by decide, c3_no_eq_or_leading_ws.1 default "hello" (by decide), rfl, by decide,
    c3_no_eq_or_leading_ws.2 default " NAME=x" ' ' "NAME=x".data rfl (by decide) Key.name⟩

/-- C5: for every recognized key and every nonempty value `v` containing
no double quote, the lines `KEY="v"` and `KEY=v` assign the identical
value `v` to the corresponding field. -/
theorem c5_quotes_optional (k : Key) (v : String) (hne : v ≠ "")
    (hq : ∀ c ∈ v.data, c ≠ '"') :
    getField (from_iter [keyString k ++ "=\"" ++ v ++ "\""]) k = v ∧
      getField (from_iter [keyString k ++ "=" ++ v]) k = v := by
  have hvne : v.data ≠ [] := fun h0 => hne (String.ext h0)
  have hval : ∀ c ∈ v.data, valueChar c = true := fun c hc => by
    simp [valueChar, hq c hc]
  have h1 : recognizedCapture k (keyString k ++ "=\"" ++ v ++ "\"") = some v.data :=
    recognizedCapture_of_data k _ v.data ['"'] ['"']
      (by simp [String.data_append]) hvne hval (Or.inr rfl) (Or.inr rfl)
  have h2 : recognizedCapture k (keyString k ++ "=" ++ v) = some v.data :=
    recognizedCapture_of_data k _ v.data [] []
      (by simp [String.data_append]) hvne hval (Or.inl rfl) (Or.inl rfl)
  constructor
  · rw [show from_iter [keyString k ++ "=\"" ++ v ++ "\""]
        = step default (keyString k ++ "=\"" ++ v ++ "\"") from rfl,
      step_of_capture k _ v.data default h1, getField_setField_same]
  · rw [show from_iter [keyString k ++ "=" ++ v]
        = step default (keyString k ++ "=" ++ v) from rfl,
      step_of_capture k _ v.data default h2, getField_setField_same]

theorem c5_witness :
    (("x" : String) ≠ "") ∧ (∀ c ∈ ("x" : String).data, c ≠ '"') ∧
      getField (from_iter [keyString Key.name ++ "=\"" ++ "x" ++ "\""]) Key.name = "x" ∧
      getField (from_iter [keyString Key.name ++ "=" ++ "x"]) Key.name = "x" :=
  ⟨by decide, by decide, (c5_quotes_optional Key.name "x" (by decide) (by decide)).1,
    (c5_quotes_optional Key.name "x" (by decide) (by decide)).2⟩

/-- The embedding reproduces the crate's own unit test (`mod test` in
`os_release.rs`): the example file parses to exactly the record the test
asserts, including `EXTRA_KEY` in `extra` and the dropped `ANOTHER_KEY=`. -/
theorem from_iter_matches_crate_test :
    from_iter ["NAME=\"Pop!_OS\"", "VERSION=\"18.04 LTS\"", "ID=ubuntu", "ID_LIKE=debian",
      "PRETTY_NAME=\"Pop!_OS 18.04 LTS\"", "VERSION_ID=\"18.04\"",
      "HOME_URL=\"https://system76.com/pop\"", "SUPPORT_URL=\"http://support.system76.com\"",
      "BUG_REPORT_URL=\"https://github.com/pop-os/pop/issues\"",
      "PRIVACY_POLICY_URL=\"https://system76.com/privacy\"", "VERSION_CODENAME=bionic",
      "EXTRA_KEY=thing", "ANOTHER_KEY="] =
    { name := "Pop!_OS", version := "18.04 LTS", id := "ubuntu", id_like := "debian",
      pretty_name := "Pop!_OS 18.04 LTS", version_id := "18.04",
      home_url := "https://system76.com/pop", support_url := "http://support.system76.com",
      bug_report_url := "https://github.com/pop-os/pop/issues",
      privacy_policy_url := "https://system76.com/privacy", version_codename := "bionic",
      extra := [("EXTRA_KEY", "thing")] } := by decide

end DistroRs
